import Mathlib

/-!
Verification of the market-performance screening and event-detection engine of the
trade-volt backend (server/app/services/fluctuation_service.py and
server/app/services/performance_service.py), via a shallow embedding in Lean.

Conventions of the embedding:
* closing prices are rationals (`ℚ`); a price series is a list of `(date, close)`
  pairs with dates as day numbers (`Nat`), ascending, mirroring a pandas
  DataFrame indexed by date;
* the external libraries (pykrx, yfinance/FinanceDataReader, redis, hashlib.md5)
  are modelled at their call boundary: fallible calls as `Except Unit`-valued
  parameters, the md5 hex digest as an abstract `String → String` parameter;
* Python dicts are association lists with insertion-order semantics, Python
  string comparison is lexicographic comparison of code points;
* pandas `sort_values` / Python `sorted` are modelled by the stable
  `List.insertionSort`.

Rat arithmetic in Batteries is `@[irreducible]`; re-enable unfolding so that
concrete scenarios evaluate under `decide`.
-/

attribute [local semireducible] Rat.mul Rat.add Rat.sub Rat.inv Rat.ofScientific

/-! ### Python string order

`charListLtb a b` decides whether the string with code points `a` is strictly
smaller than the one with code points `b` in Python's lexicographic order. -/

def charListLtb : List Char → List Char → Bool
  | [], [] => false
  | [], _ :: _ => true
  | _ :: _, [] => false
  | a :: as, b :: bs => if a < b then true else if b < a then false else charListLtb as bs

/-- Strict Python string order. -/
def strLt (a b : String) : Prop := charListLtb a.data b.data = true

/-- Non-strict Python string order. -/
def strLe (a b : String) : Prop := charListLtb b.data a.data = false

instance : DecidableRel strLt := fun a b => inferInstanceAs (Decidable (_ = true))

instance : DecidableRel strLe := fun a b => inferInstanceAs (Decidable (_ = false))

theorem charListLtb_irrefl : ∀ a : List Char, charListLtb a a = false
  | [] => rfl
  | c :: a => by
    simp only [charListLtb, lt_irrefl, if_false]
    exact charListLtb_irrefl a

theorem charListLtb_asymm : ∀ {a b : List Char}, charListLtb a b = true → charListLtb b a = false
  | [], [], h => by simp [charListLtb] at h
  | [], _ :: _, _ => rfl
  | _ :: _, [], h => by simp [charListLtb] at h
  | x :: a, y :: b, h => by
    simp only [charListLtb] at h ⊢
    rcases lt_trichotomy x y with hxy | hxy | hxy
    · rw [if_neg (asymm hxy), if_pos hxy]
    · subst hxy
      rw [if_neg (lt_irrefl x), if_neg (lt_irrefl x)] at h ⊢
      exact charListLtb_asymm h
    · rw [if_pos hxy] at h
      exact absurd h (by simp [asymm hxy])

theorem charListLtb_connex : ∀ {a b : List Char},
    charListLtb a b = false → charListLtb b a = false → a = b
  | [], [], _, _ => rfl
  | [], _ :: _, h, _ => by simp [charListLtb] at h
  | _ :: _, [], _, h => by simp [charListLtb] at h
  | x :: a, y :: b, h1, h2 => by
    simp only [charListLtb] at h1 h2
    rcases lt_trichotomy x y with hxy | hxy | hxy
    · rw [if_pos hxy] at h1; exact absurd h1 (by simp)
    · subst hxy
      rw [if_neg (lt_irrefl x), if_neg (lt_irrefl x)] at h1 h2
      rw [charListLtb_connex h1 h2]
    · rw [if_pos hxy] at h2; exact absurd h2 (by simp)

theorem charListLtb_le_trans : ∀ {a b c : List Char},
    charListLtb b a = false → charListLtb c b = false → charListLtb c a = false
  | [], _, [], _, _ => rfl
  | [], _, _ :: _, _, _ => rfl
  | _ :: _, [], _, h1, _ => by simp [charListLtb] at h1
  | _ :: _, _ :: _, [], _, h2 => by simp [charListLtb] at h2
  | x :: a, y :: b, z :: c, h1, h2 => by
    simp only [charListLtb] at h1 h2 ⊢
    have hyx : ¬ y < x := by
      intro hl; rw [if_pos hl] at h1; exact absurd h1 (by simp)
    have hzy : ¬ z < y := by
      intro hl; rw [if_pos hl] at h2; exact absurd h2 (by simp)
    have hxy : x ≤ y := not_lt.mp hyx
    have hyz : y ≤ z := not_lt.mp hzy
    have hzx : ¬ z < x := not_lt.mpr (le_trans hxy hyz)
    rw [if_neg hzx]
    by_cases hxz : x < z
    · rw [if_pos hxz]
    · rw [if_neg hxz]
      have hxez : x = z := le_antisymm (le_trans hxy hyz) (not_lt.mp hxz)
      have hxey : x = y := le_antisymm hxy (by rw [hxez]; exact hyz)
      subst hxey
      rw [if_neg (lt_irrefl x), if_neg (lt_irrefl x)] at h1
      rw [← hxez] at h2
      rw [if_neg (lt_irrefl x), if_neg (lt_irrefl x)] at h2
      exact charListLtb_le_trans h1 h2

theorem strLe_total (a b : String) : strLe a b ∨ strLe b a := by
  unfold strLe
  by_cases h : charListLtb b.data a.data = true
  · exact Or.inr (charListLtb_asymm h)
  · exact Or.inl (Bool.eq_false_iff.mpr h)

theorem strLe_trans {a b c : String} (h1 : strLe a b) (h2 : strLe b c) : strLe a c :=
  charListLtb_le_trans h1 h2

theorem strLe_antisymm {a b : String} (h1 : strLe a b) (h2 : strLe b a) : a = b := by
  cases a with
  | mk da =>
    cases b with
    | mk db =>
      have : db = da := charListLtb_connex h1 h2
      rw [this]

theorem strLt_of_strLe_of_ne {a b : String} (h1 : strLe a b) (h2 : a ≠ b) : strLt a b := by
  unfold strLt
  by_cases h : charListLtb a.data b.data = true
  · exact h
  · exact absurd (strLe_antisymm h1 (Bool.eq_false_iff.mpr h)) h2

theorem strLe_of_strLt {a b : String} (h : strLt a b) : strLe a b := charListLtb_asymm h

theorem strLt_ne {a b : String} (h : strLt a b) : a ≠ b := by
  rintro rfl
  rw [strLt, charListLtb_irrefl] at h
  cases h

theorem strLt_trans {a b c : String} (h1 : strLt a b) (h2 : strLt b c) : strLt a c := by
  have hac : strLe a c := strLe_trans (strLe_of_strLt h1) (strLe_of_strLt h2)
  refine strLt_of_strLe_of_ne hac ?_
  rintro rfl
  exact strLt_ne h1 (strLe_antisymm (strLe_of_strLt h1) (strLe_of_strLt h2))

/-! ### Fluctuation event detection

Shallow embedding of `FluctuationService._find_fluctuation_stocks_kr` /
`_find_fluctuation_stocks_us` (fluctuation_service.py): per-series
decline-then-rebound detection. A series is a list of `(date, close)` pairs in
DataFrame order; `decline(i) = (close[i] / close[i - declinePeriod] - 1) * 100`
uses positional shifting (pandas `shift`), the rebound window uses calendar
dates (`timedelta(days=rebound_period)`). Prices are positive in the PriceSeries
data model; hypotheses of the theorems record that. -/

structure FluctEvent where
  ticker : String
  name : String
  trough_date : Nat
  trough_price : ℚ
  rebound_date : Nat
  rebound_price : ℚ
  rebound_performance : ℚ
deriving DecidableEq, Repr

/-- Date at positional index `i` of a series (DataFrame row label). -/
def dateAt (s : List (Nat × ℚ)) (i : Nat) : Nat := (s.getD i (0, 0)).1

/-- Closing price at positional index `i` of a series. -/
def priceAt (s : List (Nat × ℚ)) (i : Nat) : ℚ := (s.getD i (0, 0)).2

/-- Trailing decline in percent: `(df['close'] / df['close'].shift(dp) - 1) * 100`. -/
def declineAt (s : List (Nat × ℚ)) (dp i : Nat) : ℚ :=
  (priceAt s i / priceAt s (i - dp) - 1) * 100

/-- Forward rebound window `df[(df.index > d) & (df.index <= d + rp days)]`. -/
def windowAt (s : List (Nat × ℚ)) (d rp : Nat) : List (Nat × ℚ) :=
  s.filter (fun q => decide (d < q.1 ∧ q.1 ≤ d + rp))

/-- Maximum closing price of a window (`rebound_df['close'].max()`). -/
def seriesMax : List (Nat × ℚ) → ℚ
  | [] => 0
  | q :: rest => rest.foldl (fun m p => max m p.2) q.2

/-- Date of the first row attaining the maximum (`rebound_df['close'].idxmax()`). -/
def seriesIdxmax : List (Nat × ℚ) → Nat
  | [] => 0
  | q :: rest => (rest.foldl (fun b p => if b.2 < p.2 then p else b) q).1

/-- One loop iteration of the trough scan: the event emitted for positional
index `i`, if any. Indices with `i < dp` have a NaN shifted price and are never
candidates; a candidate trough needs `decline(i) <= decline_rate`; the event is
emitted when the forward window is nonempty with positive maximum and the
rebound performance reaches `rebound_rate`. -/
def eventAt (t n : String) (s : List (Nat × ℚ)) (dp : Nat) (dRate : ℚ) (rp : Nat)
    (rRate : ℚ) (i : Nat) : Option FluctEvent :=
  if dp ≤ i ∧ i < s.length then
    if declineAt s dp i ≤ dRate then
      if windowAt s (dateAt s i) rp ≠ [] ∧ 0 < seriesMax (windowAt s (dateAt s i) rp) then
        if rRate ≤ (if 0 < priceAt s i
            then (seriesMax (windowAt s (dateAt s i) rp) / priceAt s i - 1) * 100 else 0) then
          some ⟨t, n, dateAt s i, priceAt s i, seriesIdxmax (windowAt s (dateAt s i) rp),
            seriesMax (windowAt s (dateAt s i) rp),
            (if 0 < priceAt s i
              then (seriesMax (windowAt s (dateAt s i) rp) / priceAt s i - 1) * 100 else 0)⟩
        else none
      else none
    else none
  else none

/-- All events found in one series, in trough order; the series is skipped
entirely when it is shorter than the decline period
(`if df.empty or len(df) < decline_period: continue`). -/
def findEvents (t n : String) (s : List (Nat × ℚ)) (dp : Nat) (dRate : ℚ) (rp : Nat)
    (rRate : ℚ) : List FluctEvent :=
  if s.length < dp then []
  else (List.range s.length).filterMap (eventAt t n s dp dRate rp rRate)

/-- The worked 9-day series of the specification, as `(day, close)` pairs. -/
def exSeries : List (Nat × ℚ) :=
  [(0, 100), (1, 100), (2, 100), (3, 100), (4, 100),
   (5, 75), (6, 70), (7, 95), (8, 110)]

theorem seriesMax_aux (l : List (Nat × ℚ)) (a : ℚ) :
    (∃ q ∈ l, l.foldl (fun m p => max m p.2) a = q.2) ∨ l.foldl (fun m p => max m p.2) a = a := by
  induction l generalizing a with
  | nil => exact Or.inr rfl
  | cons p t ih =>
    simp only [List.foldl_cons]
    rcases ih (max a p.2) with ⟨q, hq, he⟩ | he
    · exact Or.inl ⟨q, List.mem_cons_of_mem _ hq, he⟩
    · rcases max_choice a p.2 with hm | hm
      · exact Or.inr (he.trans hm)
      · exact Or.inl ⟨p, List.mem_cons_self _ _, he.trans hm⟩

theorem seriesMax_mem {l : List (Nat × ℚ)} (h : l ≠ []) : ∃ q ∈ l, seriesMax l = q.2 := by
  cases l with
  | nil => exact absurd rfl h
  | cons q t =>
    rcases seriesMax_aux t q.2 with ⟨p, hp, he⟩ | he
    · exact ⟨p, List.mem_cons_of_mem _ hp, he⟩
    · exact ⟨q, List.mem_cons_self _ _, he⟩

theorem le_foldl_max (l : List (Nat × ℚ)) (a : ℚ) :
    a ≤ l.foldl (fun m p => max m p.2) a ∧
    ∀ q ∈ l, q.2 ≤ l.foldl (fun m p => max m p.2) a := by
  induction l generalizing a with
  | nil => exact ⟨le_refl a, by simp⟩
  | cons p t ih =>
    rcases ih (max a p.2) with ⟨h1, h2⟩
    refine ⟨le_trans (le_max_left _ _) h1, ?_⟩
    intro q hq
    rcases List.mem_cons.mp hq with rfl | hq
    · exact le_trans (le_max_right _ _) h1
    · exact h2 q hq

/-- Every window price is bounded by `seriesMax` (the `.max()` of the window). -/
theorem le_seriesMax {l : List (Nat × ℚ)} {q : Nat × ℚ} (h : q ∈ l) : q.2 ≤ seriesMax l := by
  cases l with
  | nil => cases h
  | cons p t =>
    rcases List.mem_cons.mp h with rfl | hq
    · exact (le_foldl_max t q.2).1
    · exact (le_foldl_max t p.2).2 q hq

theorem seriesMax_pos {l : List (Nat × ℚ)} (hne : l ≠ []) (hpos : ∀ q ∈ l, 0 < q.2) :
    0 < seriesMax l := by
  rcases seriesMax_mem hne with ⟨q, hq, he⟩
  rw [he]
  exact hpos q hq

set_option maxRecDepth 100000

/-- Emission criterion for a single candidate trough, and inclusion of the
emitted event in the per-series result. Helper for the claim theorems. -/
theorem eventAt_emission (t n : String) (s : List (Nat × ℚ)) (dp : Nat) (dRate : ℚ)
    (rp : Nat) (rRate : ℚ) (i : Nat)
    (hpos : ∀ q ∈ s, 0 < q.2) (h1 : dp ≤ i) (h2 : i < s.length)
    (hcand : declineAt s dp i ≤ dRate)
    (hw : windowAt s (dateAt s i) rp ≠ []) :
    ((eventAt t n s dp dRate rp rRate i).isSome ↔
      rRate ≤ (seriesMax (windowAt s (dateAt s i) rp) / priceAt s i - 1) * 100) ∧
    (∀ ev, eventAt t n s dp dRate rp rRate i = some ev →
      ev ∈ findEvents t n s dp dRate rp rRate) := by
  have hpmem : (s.getD i (0, 0)) ∈ s := by
    rw [List.getD_eq_getElem s _ h2]
    exact List.getElem_mem _
  have hp : 0 < priceAt s i := hpos _ hpmem
  have hmax : 0 < seriesMax (windowAt s (dateAt s i) rp) :=
    seriesMax_pos hw (fun q hq => hpos q (List.mem_of_mem_filter hq))
  constructor
  · rw [eventAt, if_pos ⟨h1, h2⟩, if_pos hcand, if_pos ⟨hw, hmax⟩, if_pos hp]
    split_ifs with h <;> simp [h]
  · intro ev hev
    rw [findEvents, if_neg (by omega)]
    exact List.mem_filterMap.mpr ⟨i, List.mem_range.mpr h2, hev⟩

/-- C1, counterexample. On the closes `[100,100,100,100,100,75,70,95,110]` with
`declinePeriod=5, declineRateThreshold=-20, reboundPeriod=3,
reboundRateThreshold=20` the detector emits TWO events, not exactly one: index 6
(close 70) is also a candidate trough, since its trailing decline against index
1 is `(70/100 - 1)*100 = -30 ≤ -20`, and its forward window max 110 gives a
rebound of `400/7 ≈ 57.1 ≥ 20`. The claim that exactly one `FluctuationEvent`
(trough 75) is emitted is false. -/
theorem findEvents_example_not_single :
    (findEvents "T" "N" exSeries 5 (-20) 3 20).length = 2 ∧
    ¬ (findEvents "T" "N" exSeries 5 (-20) 3 20).length = 1 := by decide

/-- C1 (amended). On the closes `[100,100,100,100,100,75,70,95,110]` with
`declinePeriod=5, declineRateThreshold=-20, reboundPeriod=3,
reboundRateThreshold=20` event detection emits exactly two events: trough 75
(index 5, trailing decline -25% vs index 0) rebounding to 110 (performance
140/3 %), and trough 70 (index 6, trailing decline -30% vs index 1) rebounding
to 110 (performance 400/7 %); in general, for a series of positive prices, a
candidate trough at index `i` (date `d`, price `p`) with nonempty forward window
`(d, d + reboundPeriod]` produces an event iff
`(p_max / p - 1) * 100 >= reboundRateThreshold`, where `p_max` is the window
maximum, and every produced event is in the per-series result. -/
theorem findEvents_spec :
    (findEvents "T" "N" exSeries 5 (-20) 3 20 =
      [⟨ "T", "N", 5, 75, 8, 110, 140 / 3⟩, ⟨ "T", "N", 6, 70, 8, 110, 400 / 7⟩]) ∧
    (∀ (t n : String) (s : List (Nat × ℚ)) (dp : Nat) (dRate : ℚ) (rp : Nat) (rRate : ℚ)
      (i : Nat), (∀ q ∈ s, 0 < q.2) → dp ≤ i → i < s.length →
      declineAt s dp i ≤ dRate → windowAt s (dateAt s i) rp ≠ [] →
      (((eventAt t n s dp dRate rp rRate i).isSome ↔
        rRate ≤ (seriesMax (windowAt s (dateAt s i) rp) / priceAt s i - 1) * 100) ∧
      (∀ ev, eventAt t n s dp dRate rp rRate i = some ev →
        ev ∈ findEvents t n s dp dRate rp rRate))) :=
  ⟨by decide, fun t n s dp dRate rp rRate i hpos h1 h2 hcand hw =>
    eventAt_emission t n s dp dRate rp rRate i hpos h1 h2 hcand hw⟩

/-- C1, witness: the general emission criterion applied to the concrete trough
at index 5 of the worked series. -/
theorem findEvents_spec_witness :
    ((eventAt "T" "N" exSeries 5 (-20) 3 20 5).isSome ↔
      (20 : ℚ) ≤ (seriesMax (windowAt exSeries (dateAt exSeries 5) 3) / priceAt exSeries 5 - 1) * 100) ∧
    (∀ ev, eventAt "T" "N" exSeries 5 (-20) 3 20 5 = some ev →
      ev ∈ findEvents "T" "N" exSeries 5 (-20) 3 20) :=
  findEvents_spec.2 "T" "N" exSeries 5 (-20) 3 20 5
    (by decide) (by decide) (by decide) (by decide) (by decide)

/-! ### Performance ranking

Shallow embedding of the ranking step of
`PerformanceService.get_market_performance` (performance_service.py):
`sort_values('performance', ascending=False)`, `head(top_n)` and
`tail(top_n).sort_values('performance', ascending=True)`. -/

structure PerfRecord where
  ticker : String
  name : String
  performance : ℚ
deriving DecidableEq, Repr

/-- Order used by `sort_values(by='performance', ascending=False)`. -/
def perfGe (a b : PerfRecord) : Prop := b.performance ≤ a.performance

/-- Order used by `sort_values(by='performance', ascending=True)`. -/
def perfLe (a b : PerfRecord) : Prop := a.performance ≤ b.performance

instance : DecidableRel perfGe :=
  fun a b => inferInstanceAs (Decidable (b.performance ≤ a.performance))

instance : DecidableRel perfLe :=
  fun a b => inferInstanceAs (Decidable (a.performance ≤ b.performance))

instance : IsTotal PerfRecord perfGe := ⟨fun a b => le_total b.performance a.performance⟩

instance : IsTrans PerfRecord perfGe := ⟨fun _ _ _ h1 h2 => le_trans h2 h1⟩

instance : IsTotal PerfRecord perfLe := ⟨fun a b => le_total a.performance b.performance⟩

instance : IsTrans PerfRecord perfLe := ⟨fun _ _ _ h1 h2 => le_trans h1 h2⟩

/-- Records sorted descending by performance. -/
def sortDescPerf (recs : List PerfRecord) : List PerfRecord := List.insertionSort perfGe recs

/-- Records sorted ascending by performance. -/
def sortAscPerf (recs : List PerfRecord) : List PerfRecord := List.insertionSort perfLe recs

/-- Top/bottom ranking: `head(top_n)` of the descending sort, and `tail(top_n)`
of it (its last `min top_n length` rows, in place) re-sorted ascending. -/
def rankRecords (recs : List PerfRecord) (top_n : Nat) :
    List PerfRecord × List PerfRecord :=
  ((sortDescPerf recs).take top_n,
   sortAscPerf ((sortDescPerf recs).drop ((sortDescPerf recs).length - top_n)))

/-- The worked ranking example: performances `[10, -5, 40, 0, 40]`. -/
def exPerfRecords : List PerfRecord :=
  [⟨ "A", "NA", 10⟩, ⟨ "B", "NB", -5⟩, ⟨ "C", "NC", 40⟩, ⟨ "D", "ND", 0⟩, ⟨ "E", "NE", 40⟩]

/-- C2. Ranking sorts descending by performance, takes the first `topN` as top
performers and the last `topN` re-sorted ascending as bottom performers; on the
worked example (performances `[10, -5, 40, 0, 40]`, `topN = 2`) the top
performers carry performances `[40, 40]` with the tie in stable input order
(ticker C before ticker E) and the bottom performers carry `[-5, 0]`. In
general both output lists are sorted as claimed, have `min topN n` entries and
consist of input records. -/
theorem rank_performance_spec :
    (rankRecords exPerfRecords 2 =
      ([⟨ "C", "NC", 40⟩, ⟨ "E", "NE", 40⟩], [⟨ "B", "NB", -5⟩, ⟨ "D", "ND", 0⟩])) ∧
    ∀ (recs : List PerfRecord) (n : Nat),
      (rankRecords recs n).1.Sorted perfGe ∧
      (rankRecords recs n).2.Sorted perfLe ∧
      (rankRecords recs n).1.length = min n recs.length ∧
      (rankRecords recs n).2.length = min n recs.length ∧
      (∀ r, r ∈ (rankRecords recs n).1 → r ∈ recs) ∧
      (∀ r, r ∈ (rankRecords recs n).2 → r ∈ recs) := by
  constructor
  · decide
  · intro recs n
    refine ⟨?_, ?_, ?_, ?_, ?_, ?_⟩
    · exact (List.sorted_insertionSort perfGe recs).sublist (List.take_sublist n _)
    · exact List.sorted_insertionSort perfLe _
    · simp [rankRecords, sortDescPerf, List.length_take, List.length_insertionSort]
    · simp only [rankRecords, sortAscPerf, List.length_insertionSort, List.length_drop,
        sortDescPerf]
      omega
    · intro r hr
      have := List.mem_of_mem_take hr
      exact (List.mem_insertionSort perfGe).mp this
    · intro r hr
      have h1 := (List.mem_insertionSort perfLe).mp hr
      have h2 := List.mem_of_mem_drop h1
      exact (List.mem_insertionSort perfGe).mp h2

/-- C2, witness: the membership conjunct applied to the concrete top tie record
of the worked example. -/
theorem rank_performance_spec_witness :
    (⟨ "C", "NC", 40⟩ : PerfRecord) ∈ exPerfRecords :=
  (rank_performance_spec.2 exPerfRecords 2).2.2.2.2.1 _ (by decide)

/-! ### Outlier filtering of performance values

Shallow embedding of the per-ticker computation of
`PerformanceService._get_performance_kr` (iloc[0] / iloc[-1] under the
`len(df) > 1` and `start_price > 0` guards, then the range filter
`-90 <= performance <= 900`), and of the filter of
`_get_performance_us_optimized` (its computed values satisfy `pd.notna`). -/

def perfKrOfSeries (closes : List ℚ) : Option ℚ :=
  if 1 < closes.length then
    if 0 < closes.headD 0 then
      if -90 ≤ (closes.getLastD 0 - closes.headD 0) / closes.headD 0 * 100 ∧
          (closes.getLastD 0 - closes.headD 0) / closes.headD 0 * 100 ≤ 900 then
        some ((closes.getLastD 0 - closes.headD 0) / closes.headD 0 * 100)
      else none
    else none
  else none

/-- The US-path outlier test `-90 <= performance <= 900`. -/
def usOutlierKeep (p : ℚ) : Bool := decide (-90 ≤ p ∧ p ≤ 900)

/-- C6. A computed performance value becomes eligible for ranking iff it lies
in the closed interval `[-90, 900]`; in particular exactly `-90` and exactly
`900` are retained while `-90.01` and `900.01` are excluded (the latter two
arising from the concrete series `[10000, 999]` and `[10000, 100001]`). -/
theorem outlier_filter_spec :
    (∀ closes : List ℚ, 1 < closes.length → 0 < closes.headD 0 →
      ((perfKrOfSeries closes).isSome ↔
        (-90 ≤ (closes.getLastD 0 - closes.headD 0) / closes.headD 0 * 100 ∧
         (closes.getLastD 0 - closes.headD 0) / closes.headD 0 * 100 ≤ 900))) ∧
    (∀ p : ℚ, usOutlierKeep p = true ↔ (-90 ≤ p ∧ p ≤ 900)) ∧
    perfKrOfSeries [100, 10] = some (-90) ∧
    perfKrOfSeries [100, 1000] = some 900 ∧
    perfKrOfSeries [10000, 999] = none ∧
    perfKrOfSeries [10000, 100001] = none ∧
    ((999 : ℚ) - 10000) / 10000 * 100 = -90.01 ∧
    ((100001 : ℚ) - 10000) / 10000 * 100 = 900.01 := by
  refine ⟨?_, ?_, by decide, by decide, by decide, by decide, by decide, by decide⟩
  · intro closes hlen hpos
    rw [perfKrOfSeries, if_pos hlen, if_pos hpos]
    split_ifs with h
    · exact iff_of_true rfl h
    · exact iff_of_false (by simp) h
  · intro p
    simp [usOutlierKeep]

/-- C6, witness: the eligibility criterion applied to the concrete series
`[100, 10]`, whose performance is exactly the retained boundary `-90`. -/
theorem outlier_filter_spec_witness :
    (perfKrOfSeries [100, 10]).isSome ↔
      (-90 ≤ (([(100 : ℚ), 10].getLastD 0) - ([(100 : ℚ), 10].headD 0)) /
          ([(100 : ℚ), 10].headD 0) * 100 ∧
       (([(100 : ℚ), 10].getLastD 0) - ([(100 : ℚ), 10].headD 0)) /
          ([(100 : ℚ), 10].headD 0) * 100 ≤ 900) :=
  outlier_filter_spec.1 [100, 10] (by decide) (by decide)

/-! ### Cache service

Shallow embedding of `CacheService` (performance_service.py). Keyword argument
values are strings or integers (`JVal`); `_generate_key` serializes the kwargs
dict with `json.dumps(kwargs, sort_keys=True)` (keys in Python string order)
and hashes with md5, modelled as an abstract digest function
`md5hex : String → String`. The redis client is modelled by a store of
`(key, (value, expiry))` entries plus a reachability flag `redisUp`; a call
with `redisUp = false` is a raised exception (`Except.error`), absorbed by the
try/except blocks of `get`/`set`. Python dicts are association lists with
update-in-place / append-at-end semantics. -/

inductive JVal where
  | s (v : String)
  | i (v : Int)
deriving DecidableEq, Repr

def dumpJVal : JVal → String
  | .s v => "\x22" ++ v ++ "\x22"
  | .i v => toString v

/-- Order of `sort_keys=True` on the kwargs entries. -/
def kwLe (a b : String × JVal) : Prop := strLe a.1 b.1

instance : DecidableRel kwLe := fun a b => inferInstanceAs (Decidable (strLe a.1 b.1))

instance : IsTotal (String × JVal) kwLe := ⟨fun a b => strLe_total a.1 b.1⟩

instance : IsTrans (String × JVal) kwLe := ⟨fun _ _ _ h1 h2 => strLe_trans h1 h2⟩

def sortKwargs (kwargs : List (String × JVal)) : List (String × JVal) :=
  List.insertionSort kwLe kwargs

/-- The canonical serialization `json.dumps(kwargs, sort_keys=True)`. -/
def dumpsSorted (kwargs : List (String × JVal)) : String :=
  "\x7b" ++ String.intercalate ", "
    ((sortKwargs kwargs).map (fun p => "\x22" ++ p.1 ++ "\x22: " ++ dumpJVal p.2)) ++ "\x7d"

/-- Cache key derivation `CacheService._generate_key`:
`prefix + ":" + md5(json.dumps(kwargs, sort_keys=True)).hexdigest()[:8]`. -/
def generateKey (md5hex : String → String) (pfx : String)
    (kwargs : List (String × JVal)) : String :=
  pfx ++ ":" ++ (md5hex (dumpsSorted kwargs)).take 8

/-- Strict key order on kwargs entries. -/
def kwStrictLt (a b : String × JVal) : Prop := strLt a.1 b.1

instance : IsAntisymm (String × JVal) kwStrictLt :=
  ⟨fun a b h1 h2 => absurd (strLe_antisymm (strLe_of_strLt h1) (strLe_of_strLt h2)) (strLt_ne h1)⟩

theorem sortKwargs_strict {kw : List (String × JVal)} (hnd : (kw.map Prod.fst).Nodup) :
    (sortKwargs kw).Pairwise kwStrictLt := by
  have hsorted : (sortKwargs kw).Pairwise kwLe := List.sorted_insertionSort kwLe kw
  have hnd2 : ((sortKwargs kw).map Prod.fst).Nodup := by
    refine ((List.perm_insertionSort kwLe kw).map Prod.fst).nodup_iff.mpr hnd
  have hne : (sortKwargs kw).Pairwise (fun a b => a.1 ≠ b.1) :=
    (List.pairwise_map).mp hnd2
  exact (hsorted.and hne).imp (fun h => strLt_of_strLe_of_ne h.1 h.2)

theorem sortKwargs_perm_eq {kw1 kw2 : List (String × JVal)}
    (hp : kw1.Perm kw2) (hnd : (kw1.map Prod.fst).Nodup) :
    sortKwargs kw1 = sortKwargs kw2 := by
  have hp2 : (sortKwargs kw1).Perm (sortKwargs kw2) :=
    (List.perm_insertionSort kwLe kw1).trans (hp.trans (List.perm_insertionSort kwLe kw2).symm)
  have hnd2 : (kw2.map Prod.fst).Nodup := ((hp.map Prod.fst).nodup_iff).mp hnd
  exact List.eq_of_perm_of_sorted hp2 (sortKwargs_strict hnd) (sortKwargs_strict hnd2)

/-- C4. The physical cache key is a function only of the prefix and of the set
of keyword name/value pairs: supplying the same keyword arguments in any order
(keyword names are necessarily distinct) yields the same key, for every digest
function. -/
theorem generateKey_perm_invariant :
    ∀ (md5hex : String → String) (pfx : String) (kw1 kw2 : List (String × JVal)),
      kw1.Perm kw2 → (kw1.map Prod.fst).Nodup →
      generateKey md5hex pfx kw1 = generateKey md5hex pfx kw2 := by
  intro md5hex pfx kw1 kw2 hp hnd
  unfold generateKey dumpsSorted
  rw [sortKwargs_perm_eq hp hnd]

/-- C4, witness: the key of a concrete two-parameter request is unchanged when
the keyword arguments are supplied in the opposite order. -/
theorem generateKey_perm_invariant_witness :
    generateKey id "market_performance"
      [( "market", JVal.s "KOSPI"), ( "top_n", JVal.i 5)] =
    generateKey id "market_performance"
      [( "top_n", JVal.i 5), ( "market", JVal.s "KOSPI")] :=
  generateKey_perm_invariant id "market_performance" _ _ (by decide) (by decide)

/-- Python dict lookup `d.get(k)` over an insertion-ordered association list. -/
def dictGet {β : Type} (d : List (String × β)) (k : String) : Option β :=
  (d.find? (fun p => p.1 == k)).map Prod.snd

/-- Python dict update `d[k] = v`: in-place update of an existing key, append
of a fresh key. -/
def dictSet {β : Type} (d : List (String × β)) (k : String) (v : β) : List (String × β) :=
  if (d.find? (fun p => p.1 == k)).isSome then
    d.map (fun p => if p.1 == k then (k, v) else p)
  else d ++ [(k, v)]

/-- Python dict deletion `del d[k]`. -/
def dictDel {β : Type} (d : List (String × β)) (k : String) : List (String × β) :=
  d.filter (fun p => p.1 != k)

/-- The key of minimal timestamp, first in iteration order
(`min(timestamps.keys(), key=...)`). -/
def minTimestampKey (t : List (String × ℚ)) : String :=
  match t with
  | [] => ""
  | p :: rest => (rest.foldl (fun b q => if q.2 < b.2 then q else b) p).1

/-- State of one `CacheService` instance plus its redis backend. `enabled` is
the flag set at startup; `redisUp` tells whether the backend is reachable at
call time; `redis` maps keys to `(value, expiry)`. -/
structure CacheState (α : Type) where
  enabled : Bool
  redisUp : Bool
  redis : List (String × α × ℚ)
  memory_cache : List (String × α)
  cache_timestamps : List (String × ℚ)

/-- `redis.get(key)`: raises when the backend is unreachable; an entry is gone
once its expiry time is reached. -/
def redisGet {α : Type} (s : CacheState α) (k : String) (now : ℚ) :
    Except Unit (Option α) :=
  if s.redisUp then
    .ok (match dictGet s.redis k with
      | some (v, expiry) => if now < expiry then some v else none
      | none => none)
  else .error ()

/-- `redis.setex(key, ttl, value)`: raises when unreachable or when the expire
time is not positive. -/
def redisSetex {α : Type} (s : CacheState α) (k : String) (ttl : ℚ) (v : α) (now : ℚ) :
    Except Unit (List (String × α × ℚ)) :=
  if s.redisUp ∧ 0 < ttl then .ok (dictSet s.redis k (v, now + ttl)) else .error ()

/-- The memory-tier half of `CacheService.set`: store value and timestamp, then
evict the oldest entry if the bound of 100 entries is exceeded. -/
def memorySet {α : Type} (s : CacheState α) (k : String) (data : α) (now : ℚ) :
    CacheState α × Bool :=
  let m := dictSet s.memory_cache k data
  let t := dictSet s.cache_timestamps k now
  if 100 < m.length then
    let oldest := minTimestampKey t
    ({ s with memory_cache := dictDel m oldest, cache_timestamps := dictDel t oldest }, true)
  else ({ s with memory_cache := m, cache_timestamps := t }, true)

/-- `CacheService.get` on a physical key: try redis first when enabled (an
exception is logged and absorbed), then the memory tier, whose entries expire
after the module-wide `settings.PERFORMANCE_CACHE_TTL` (`ttlGlobal`), being
deleted lazily on lookup. -/
def cacheGetKey {α : Type} (s : CacheState α) (k : String) (now ttlGlobal : ℚ) :
    CacheState α × Option α :=
  let fromRedis : Option α :=
    if s.enabled then
      match redisGet s k now with
      | .ok (some v) => some v
      | .ok none => none
      | .error _ => none
    else none
  match fromRedis with
  | some v => (s, some v)
  | none =>
    match dictGet s.memory_cache k with
    | some v =>
      if now - (dictGet s.cache_timestamps k).getD 0 < ttlGlobal then (s, some v)
      else ({ s with memory_cache := dictDel s.memory_cache k,
                     cache_timestamps := dictDel s.cache_timestamps k }, none)
    | none => (s, none)

/-- `CacheService.set` on a physical key: `ttl` defaults to the module-wide
TTL; when enabled, try `setex` and return on success; on a redis failure
(absorbed) or when disabled, fall back to the memory tier. -/
def cacheSetKey {α : Type} (s : CacheState α) (k : String) (data : α)
    (ttlArg : Option ℚ) (now ttlGlobal : ℚ) : CacheState α × Bool :=
  let ttl := ttlArg.getD ttlGlobal
  if s.enabled then
    match redisSetex s k ttl data now with
    | .ok r => ({ s with redis := r }, true)
    | .error _ => memorySet s k data now
  else memorySet s k data now

/-- `CacheService.__init__`: redis is enabled only when the module is importable
and the startup `ping` succeeds; a failed ping is absorbed and leaves an
in-process-only cache. -/
def initCache (α : Type) (redisAvailable pingOk : Bool) : CacheState α :=
  { enabled := redisAvailable && pingOk
    redisUp := pingOk
    redis := []
    memory_cache := []
    cache_timestamps := [] }

/-- `CacheService.get` on logical parameters. -/
def cacheGet {α : Type} (md5hex : String → String) (s : CacheState α) (pfx : String)
    (kwargs : List (String × JVal)) (now ttlGlobal : ℚ) : CacheState α × Option α :=
  cacheGetKey s (generateKey md5hex pfx kwargs) now ttlGlobal

/-- `CacheService.set` on logical parameters. -/
def cacheSet {α : Type} (md5hex : String → String) (s : CacheState α) (pfx : String)
    (data : α) (ttlArg : Option ℚ) (kwargs : List (String × JVal)) (now ttlGlobal : ℚ) :
    CacheState α × Bool :=
  cacheSetKey s (generateKey md5hex pfx kwargs) data ttlArg now ttlGlobal

theorem dictGet_eq_none_iff {β : Type} {d : List (String × β)} {k : String} :
    dictGet d k = none ↔ d.find? (fun p => p.1 == k) = none := by
  unfold dictGet
  cases d.find? (fun p => p.1 == k) <;> simp

theorem dictSet_fresh {β : Type} {d : List (String × β)} {k : String} (v : β)
    (h : dictGet d k = none) : dictSet d k v = d ++ [(k, v)] := by
  unfold dictSet
  rw [dictGet_eq_none_iff.mp h]
  rfl

theorem dictGet_append_fresh {β : Type} {d : List (String × β)} {k : String} (v : β)
    (h : dictGet d k = none) : dictGet (d ++ [(k, v)]) k = some v := by
  unfold dictGet
  rw [List.find?_append, dictGet_eq_none_iff.mp h]
  simp

theorem dictGet_dictSet_self {β : Type} (d : List (String × β)) (k : String) (v : β) :
    dictGet (dictSet d k v) k = some v := by
  unfold dictSet
  split_ifs with h
  · induction d with
    | nil => simp at h
    | cons p t ih =>
      by_cases hp : p.1 == k
      · unfold dictGet
        rw [List.map_cons, if_pos hp]
        have hfind : List.find? (fun q => q.1 == k)
            ((k, v) :: List.map (fun q => if (q.1 == k) = true then (k, v) else q) t) =
            some (k, v) := List.find?_cons_of_pos _ (by simp)
        rw [hfind]
        rfl
      · have h2 : (List.find? (fun q => q.1 == k) t).isSome = true := by
          have hstep : List.find? (fun q => q.1 == k) (p :: t) =
              List.find? (fun q => q.1 == k) t := List.find?_cons_of_neg _ hp
          rwa [hstep] at h
        unfold dictGet
        rw [List.map_cons, if_neg hp]
        have hfind : List.find? (fun q => q.1 == k)
            (p :: List.map (fun q => if (q.1 == k) = true then (k, v) else q) t) =
            List.find? (fun q => q.1 == k)
            (List.map (fun q => if (q.1 == k) = true then (k, v) else q) t) :=
          List.find?_cons_of_neg _ hp
        rw [hfind]
        exact ih h2
  · exact dictGet_append_fresh v
      (dictGet_eq_none_iff.mpr (Option.not_isSome_iff_eq_none.mp h))

theorem cacheSetKey_redis {α : Type} (s : CacheState α) (k : String) (v : α)
    (ttl now ttlG : ℚ) (hen : s.enabled = true) (hup : s.redisUp = true) (httl : 0 < ttl) :
    cacheSetKey s k v (some ttl) now ttlG =
      ({ s with redis := dictSet s.redis k (v, now + ttl) }, true) := by
  simp [cacheSetKey, redisSetex, hen, hup, httl]

theorem cacheGetKey_redis_hit {α : Type} (s : CacheState α) (k : String) (v : α)
    (expiry now ttlG : ℚ) (hen : s.enabled = true) (hup : s.redisUp = true)
    (hfind : dictGet s.redis k = some (v, expiry)) (hlt : now < expiry) :
    cacheGetKey s k now ttlG = (s, some v) := by
  simp [cacheGetKey, redisGet, hen, hup, hfind, hlt]

theorem cacheGetKey_redis_expired {α : Type} (s : CacheState α) (k : String) (v : α)
    (expiry now ttlG : ℚ) (hen : s.enabled = true) (hup : s.redisUp = true)
    (hfind : dictGet s.redis k = some (v, expiry)) (hge : ¬ now < expiry)
    (hmem : dictGet s.memory_cache k = none) :
    cacheGetKey s k now ttlG = (s, none) := by
  simp [cacheGetKey, redisGet, hen, hup, hfind, hge, hmem]

theorem cacheSetKey_disabled {α : Type} (s : CacheState α) (k : String) (v : α)
    (ttlArg : Option ℚ) (now ttlG : ℚ) (hen : s.enabled = false)
    (hmem : dictGet s.memory_cache k = none) (hts : dictGet s.cache_timestamps k = none)
    (hlen : s.memory_cache.length < 100) :
    cacheSetKey s k v ttlArg now ttlG =
      ({ s with memory_cache := s.memory_cache ++ [(k, v)],
                cache_timestamps := s.cache_timestamps ++ [(k, now)] }, true) := by
  have hm := dictSet_fresh v hmem
  have ht := dictSet_fresh now hts
  have hlen2 : ¬ 100 < s.memory_cache.length + 1 := by omega
  simp [cacheSetKey, memorySet, hen, hm, ht, hlen2]

theorem cacheGetKey_disabled_hit {α : Type} (s : CacheState α) (k : String) (v : α)
    (ts now ttlG : ℚ) (hen : s.enabled = false)
    (hmem : dictGet s.memory_cache k = some v) (hts : dictGet s.cache_timestamps k = some ts)
    (hlt : now - ts < ttlG) : cacheGetKey s k now ttlG = (s, some v) := by
  simp [cacheGetKey, hen, hmem, hts, hlt]

theorem cacheGetKey_disabled_expired {α : Type} (s : CacheState α) (k : String) (v : α)
    (ts now ttlG : ℚ) (hen : s.enabled = false)
    (hmem : dictGet s.memory_cache k = some v) (hts : dictGet s.cache_timestamps k = some ts)
    (hge : ¬ now - ts < ttlG) : (cacheGetKey s k now ttlG).2 = none := by
  simp [cacheGetKey, hen, hmem, hts, hge]

/-- A fresh in-process-only cache over `Nat` values, as produced by a startup
whose redis ping failed. -/
def exMemoryCache : CacheState Nat := initCache Nat true false

/-- C3, counterexample. In-process-only mode: `set` with an explicit
`ttl = 10` at time 0, then `get` of the same logical parameters at time 10
(so `ttl` seconds have elapsed) still returns the value, because the memory
tier checks the elapsed time against the module-wide
`settings.PERFORMANCE_CACHE_TTL` (3600, the config default) and ignores the
per-call `ttl`, which only reaches `redis.setex`. The claim that `get` is
absent once `ttl` has elapsed is false in in-process-only mode. -/
theorem cache_ttl_memory_ignores_request_ttl :
    (cacheGet id
      (cacheSet id exMemoryCache "market_performance" 42 (some 10)
        [( "market", JVal.s "KOSPI")] 0 3600).1
      "market_performance" [( "market", JVal.s "KOSPI")] 10 3600).2 = some 42 ∧
    ¬ (cacheGet id
      (cacheSet id exMemoryCache "market_performance" 42 (some 10)
        [( "market", JVal.s "KOSPI")] 0 3600).1
      "market_performance" [( "market", JVal.s "KOSPI")] 10 3600).2 = none := by
  constructor
  · decide
  · decide

/-- C3 (amended). With the persistent tier reachable, `set(P, v, ttl)` honors
the per-call ttl: an immediate `get(P)` returns `v` and a `get(P)` once `ttl`
seconds have elapsed is absent (for a key whose memory tier is clean). In
in-process-only mode the per-call ttl is ignored: for every requested ttl, an
immediate `get(P)` returns `v` and the entry expires only once the module-wide
`PERFORMANCE_CACHE_TTL` (`ttlGlobal`) has elapsed. -/
theorem cache_ttl_spec :
    ∀ (α : Type) (s : CacheState α) (md5hex : String → String) (pfx : String)
      (kwargs : List (String × JVal)) (v : α) (now ttlGlobal : ℚ),
      (∀ ttl : ℚ, s.enabled = true → s.redisUp = true → 0 < ttl →
        dictGet s.memory_cache (generateKey md5hex pfx kwargs) = none →
        (cacheGet md5hex (cacheSet md5hex s pfx v (some ttl) kwargs now ttlGlobal).1
            pfx kwargs now ttlGlobal).2 = some v ∧
        (cacheGet md5hex (cacheSet md5hex s pfx v (some ttl) kwargs now ttlGlobal).1
            pfx kwargs (now + ttl) ttlGlobal).2 = none) ∧
      (∀ ttlArg : Option ℚ, s.enabled = false → 0 < ttlGlobal →
        dictGet s.memory_cache (generateKey md5hex pfx kwargs) = none →
        dictGet s.cache_timestamps (generateKey md5hex pfx kwargs) = none →
        s.memory_cache.length < 100 →
        (cacheGet md5hex (cacheSet md5hex s pfx v ttlArg kwargs now ttlGlobal).1
            pfx kwargs now ttlGlobal).2 = some v ∧
        (cacheGet md5hex (cacheSet md5hex s pfx v ttlArg kwargs now ttlGlobal).1
            pfx kwargs (now + ttlGlobal) ttlGlobal).2 = none) := by
  intro α s md5hex pfx kwargs v now ttlGlobal
  constructor
  · intro ttl hen hup httl hmem
    have hs1 : (cacheSet md5hex s pfx v (some ttl) kwargs now ttlGlobal).1 =
        { s with redis := dictSet s.redis (generateKey md5hex pfx kwargs) (v, now + ttl) } := by
      rw [cacheSet, cacheSetKey_redis s _ v ttl now ttlGlobal hen hup httl]
    have hfind : dictGet (dictSet s.redis (generateKey md5hex pfx kwargs) (v, now + ttl))
        (generateKey md5hex pfx kwargs) = some (v, now + ttl) :=
      dictGet_dictSet_self _ _ _
    constructor
    · rw [cacheGet, hs1,
        cacheGetKey_redis_hit
          ({ s with redis := dictSet s.redis (generateKey md5hex pfx kwargs) (v, now + ttl) })
          (generateKey md5hex pfx kwargs) v (now + ttl) now ttlGlobal hen hup hfind
          (by linarith)]
    · rw [cacheGet, hs1,
        cacheGetKey_redis_expired
          ({ s with redis := dictSet s.redis (generateKey md5hex pfx kwargs) (v, now + ttl) })
          (generateKey md5hex pfx kwargs) v (now + ttl) (now + ttl) ttlGlobal hen hup hfind
          (by linarith) hmem]
  · intro ttlArg hen httlG hmem hts hlen
    have hs1 : (cacheSet md5hex s pfx v ttlArg kwargs now ttlGlobal).1 =
        { s with
            memory_cache := s.memory_cache ++ [(generateKey md5hex pfx kwargs, v)],
            cache_timestamps := s.cache_timestamps ++ [(generateKey md5hex pfx kwargs, now)] } := by
      rw [cacheSet, cacheSetKey_disabled s _ v ttlArg now ttlGlobal hen hmem hts hlen]
    have hm : dictGet (s.memory_cache ++ [(generateKey md5hex pfx kwargs, v)])
        (generateKey md5hex pfx kwargs) = some v := dictGet_append_fresh v hmem
    have ht : dictGet (s.cache_timestamps ++ [(generateKey md5hex pfx kwargs, now)])
        (generateKey md5hex pfx kwargs) = some now := dictGet_append_fresh now hts
    constructor
    · rw [cacheGet, hs1,
        cacheGetKey_disabled_hit
          ({ s with
              memory_cache := s.memory_cache ++ [(generateKey md5hex pfx kwargs, v)],
              cache_timestamps := s.cache_timestamps ++ [(generateKey md5hex pfx kwargs, now)] })
          (generateKey md5hex pfx kwargs) v now now ttlGlobal hen hm ht (by linarith)]
    · rw [cacheGet, hs1]
      exact cacheGetKey_disabled_expired
        ({ s with
            memory_cache := s.memory_cache ++ [(generateKey md5hex pfx kwargs, v)],
            cache_timestamps := s.cache_timestamps ++ [(generateKey md5hex pfx kwargs, now)] })
        (generateKey md5hex pfx kwargs) v now (now + ttlGlobal) ttlGlobal hen hm ht
        (by linarith)

/-- C3, witness: both modes instantiated concretely, with `ttl = 5` and a
global TTL of 3600 against a fresh cache. -/
theorem cache_ttl_spec_witness :
    ((cacheGet id (cacheSet id (initCache Nat true true) "p" 7 (some 5)
        [( "a", JVal.i 1)] 0 3600).1 "p" [( "a", JVal.i 1)] 0 3600).2 = some 7 ∧
     (cacheGet id (cacheSet id (initCache Nat true true) "p" 7 (some 5)
        [( "a", JVal.i 1)] 0 3600).1 "p" [( "a", JVal.i 1)] (0 + 5) 3600).2 = none) ∧
    ((cacheGet id (cacheSet id exMemoryCache "p" 7 (some 5)
        [( "a", JVal.i 1)] 0 3600).1 "p" [( "a", JVal.i 1)] 0 3600).2 = some 7 ∧
     (cacheGet id (cacheSet id exMemoryCache "p" 7 (some 5)
        [( "a", JVal.i 1)] 0 3600).1 "p" [( "a", JVal.i 1)] (0 + 3600) 3600).2 = none) :=
  ⟨(cache_ttl_spec Nat (initCache Nat true true) id "p" [( "a", JVal.i 1)] 7 0 3600).1 5
      (by decide) (by decide) (by decide) (by decide),
   (cache_ttl_spec Nat exMemoryCache id "p" [( "a", JVal.i 1)] 7 0 3600).2 (some 5)
      (by decide) (by decide) (by decide) (by decide) (by decide)⟩

/-- The memory-tier half of `CacheService.get`: lookup with lazy expiry against
the module-wide TTL. This is the whole of `get` when the redis branch is
skipped or fails. -/
def memoryGet {α : Type} (s : CacheState α) (k : String) (now ttlGlobal : ℚ) :
    CacheState α × Option α :=
  match dictGet s.memory_cache k with
  | some v =>
    if now - (dictGet s.cache_timestamps k).getD 0 < ttlGlobal then (s, some v)
    else ({ s with memory_cache := dictDel s.memory_cache k,
                   cache_timestamps := dictDel s.cache_timestamps k }, none)
  | none => (s, none)

/-- C7. A persistent-backend failure never propagates: with the backend
unreachable at call time (`redisUp = false`, every redis call raising) or
disabled since startup (`enabled = false`, as after a failed startup ping),
`get` is exactly the in-process lookup (a failed persistent lookup behaves as a
cache miss) and `set` is exactly the in-process store, still returning `True`;
a failed startup ping yields a disabled cache. -/
theorem cache_degradation_spec :
    ∀ (α : Type) (s : CacheState α) (k : String) (v : α) (ttlArg : Option ℚ)
      (now ttlGlobal : ℚ),
      (cacheGetKey { s with redisUp := false } k now ttlGlobal =
        memoryGet { s with redisUp := false } k now ttlGlobal) ∧
      (cacheGetKey { s with enabled := false } k now ttlGlobal =
        memoryGet { s with enabled := false } k now ttlGlobal) ∧
      (cacheSetKey { s with redisUp := false } k v ttlArg now ttlGlobal =
        memorySet { s with redisUp := false } k v now) ∧
      (cacheSetKey { s with enabled := false } k v ttlArg now ttlGlobal =
        memorySet { s with enabled := false } k v now) ∧
      (cacheSetKey { s with redisUp := false } k v ttlArg now ttlGlobal).2 = true ∧
      (cacheGetKey { s with redisUp := false } k now ttlGlobal).1.redis = s.redis ∧
      (initCache α true false).enabled = false := by
  intro α s k v ttlArg now ttlGlobal
  obtain ⟨en, up, rd, mem, ts⟩ := s
  have hget1 : cacheGetKey (CacheState.mk en false rd mem ts) k now ttlGlobal =
      memoryGet (CacheState.mk en false rd mem ts) k now ttlGlobal := by
    cases en <;> simp [cacheGetKey, memoryGet, redisGet]
  have hget2 : cacheGetKey (CacheState.mk false up rd mem ts) k now ttlGlobal =
      memoryGet (CacheState.mk false up rd mem ts) k now ttlGlobal := by
    simp [cacheGetKey, memoryGet, redisGet]
  have hset1 : cacheSetKey (CacheState.mk en false rd mem ts) k v ttlArg now ttlGlobal =
      memorySet (CacheState.mk en false rd mem ts) k v now := by
    cases en <;> simp [cacheSetKey, redisSetex]
  have hset2 : cacheSetKey (CacheState.mk false up rd mem ts) k v ttlArg now ttlGlobal =
      memorySet (CacheState.mk false up rd mem ts) k v now := by
    simp [cacheSetKey]
  refine ⟨hget1, hget2, hset1, hset2, ?_, ?_, rfl⟩
  · rw [hset1]
    simp only [memorySet]
    split_ifs <;> rfl
  · rw [hget1]
    unfold memoryGet
    cases hdm : dictGet mem k with
    | none => rfl
    | some w => split_ifs <;> rfl

/-! ### Aggregation of fluctuation events

Shallow embedding of `FluctuationService._process_and_aggregate_results`:
`df.groupby(['ticker', 'name'])` iterates groups with keys sorted ascending
(pandas `sort=True` default, tuples ordered lexicographically by Python string
order); each group is sorted by `trough_date` descending; the summary rows,
produced in key order, are finally sorted by `occurrence_count` descending with
Python's stable `sorted`. -/

structure FluctSummary where
  ticker : String
  name : String
  occurrence_count : Nat
  recent_trough_date : Nat
  recent_trough_price : ℚ
  recent_rebound_date : Nat
  recent_rebound_performance : ℚ
  events : List FluctEvent
deriving DecidableEq, Repr

/-- The groupby key of an event. -/
def eKey (e : FluctEvent) : String × String := (e.ticker, e.name)

/-- Order for the within-group `sort_values(by='trough_date', ascending=False)`. -/
def dateGe (a b : FluctEvent) : Prop := b.trough_date ≤ a.trough_date

instance : DecidableRel dateGe :=
  fun a b => inferInstanceAs (Decidable (b.trough_date ≤ a.trough_date))

instance : IsTotal FluctEvent dateGe := ⟨fun a b => le_total b.trough_date a.trough_date⟩

instance : IsTrans FluctEvent dateGe := ⟨fun _ _ _ h1 h2 => le_trans h2 h1⟩

/-- Lexicographic Python order on `(ticker, name)` group keys, non-strict. -/
def keyLe (a b : String × String) : Prop := strLt a.1 b.1 ∨ (a.1 = b.1 ∧ strLe a.2 b.2)

/-- Lexicographic Python order on `(ticker, name)` group keys, strict. -/
def keyLt (a b : String × String) : Prop := strLt a.1 b.1 ∨ (a.1 = b.1 ∧ strLt a.2 b.2)

instance : DecidableRel keyLe := fun a b =>
  inferInstanceAs (Decidable (strLt a.1 b.1 ∨ (a.1 = b.1 ∧ strLe a.2 b.2)))

instance : DecidableRel keyLt := fun a b =>
  inferInstanceAs (Decidable (strLt a.1 b.1 ∨ (a.1 = b.1 ∧ strLt a.2 b.2)))

instance : IsTotal (String × String) keyLe := by
  constructor
  intro a b
  rcases strLe_total a.1 b.1 with h1 | h1
  · by_cases he : a.1 = b.1
    · rcases strLe_total a.2 b.2 with h2 | h2
      · exact Or.inl (Or.inr ⟨he, h2⟩)
      · exact Or.inr (Or.inr ⟨he.symm, h2⟩)
    · exact Or.inl (Or.inl (strLt_of_strLe_of_ne h1 he))
  · by_cases he : b.1 = a.1
    · rcases strLe_total a.2 b.2 with h2 | h2
      · exact Or.inl (Or.inr ⟨he.symm, h2⟩)
      · exact Or.inr (Or.inr ⟨he, h2⟩)
    · exact Or.inr (Or.inl (strLt_of_strLe_of_ne h1 he))

instance : IsTrans (String × String) keyLe := by
  constructor
  rintro a b c (h1 | ⟨he1, h1⟩) (h2 | ⟨he2, h2⟩)
  · exact Or.inl (strLt_trans h1 h2)
  · exact Or.inl (he2 ▸ h1)
  · exact Or.inl (he1 ▸ h2)
  · exact Or.inr ⟨he1.trans he2, strLe_trans h1 h2⟩

theorem keyLt_of_keyLe_of_ne {a b : String × String} (h1 : keyLe a b) (h2 : a ≠ b) :
    keyLt a b := by
  rcases h1 with h | ⟨he, h⟩
  · exact Or.inl h
  · refine Or.inr ⟨he, strLt_of_strLe_of_ne h ?_⟩
    intro he2
    exact h2 (Prod.ext he he2)

/-- The summary row for one group key (`groupby` group followed by the
within-group sort and the extraction of the most recent event; an absent key
yields an empty junk row, never hit by `processAndAggregate`). -/
def summaryOf (all_events : List FluctEvent) (k : String × String) : FluctSummary :=
  match List.insertionSort dateGe (all_events.filter (fun e => decide (eKey e = k))) with
  | [] => ⟨k.1, k.2, 0, 0, 0, 0, 0, []⟩
  | e :: rest =>
    ⟨k.1, k.2, (e :: rest).length, e.trough_date, e.trough_price, e.rebound_date,
      e.rebound_performance, e :: rest⟩

/-- Order for the final `sorted(..., key=occurrence_count, reverse=True)`. -/
def countGe (a b : FluctSummary) : Prop := b.occurrence_count ≤ a.occurrence_count

instance : DecidableRel countGe :=
  fun a b => inferInstanceAs (Decidable (b.occurrence_count ≤ a.occurrence_count))

instance : IsTotal FluctSummary countGe :=
  ⟨fun a b => le_total b.occurrence_count a.occurrence_count⟩

instance : IsTrans FluctSummary countGe := ⟨fun _ _ _ h1 h2 => le_trans h2 h1⟩

/-- `_process_and_aggregate_results`: group by `(ticker, name)` in ascending
key order, summarize each group, stable-sort by occurrence count descending. -/
def processAndAggregate (all_events : List FluctEvent) : List FluctSummary :=
  if all_events.isEmpty then []
  else
    List.insertionSort countGe
      ((List.insertionSort keyLe (all_events.map eKey).dedup).map (summaryOf all_events))

/-- Stable-sort invariant for the final summary ordering: a later row either
has a strictly smaller count or, on a tie, a strictly larger group key. -/
def stableRel (a b : FluctSummary) : Prop :=
  b.occurrence_count < a.occurrence_count ∨
  (b.occurrence_count = a.occurrence_count ∧ keyLt (a.ticker, a.name) (b.ticker, b.name))

theorem orderedInsert_stable (a : FluctSummary) :
    ∀ l : List FluctSummary, l.Pairwise stableRel →
      (∀ b ∈ l, keyLt (a.ticker, a.name) (b.ticker, b.name)) →
      (List.orderedInsert countGe a l).Pairwise stableRel
  | [], _, _ => by simp [stableRel]
  | b :: t, hl, hS => by
    rw [List.orderedInsert]
    split_ifs with hr
    · refine List.Pairwise.cons ?_ hl
      intro x hx
      rcases List.mem_cons.mp hx with rfl | hx
      · rcases eq_or_lt_of_le hr with he | hlt
        · exact Or.inr ⟨he, hS x (List.mem_cons_self _ _)⟩
        · exact Or.inl hlt
      · rcases List.rel_of_pairwise_cons hl hx with hx2 | ⟨hx2, _⟩
        · exact Or.inl (lt_of_lt_of_le hx2 hr)
        · rcases eq_or_lt_of_le hr with he | hlt
          · exact Or.inr ⟨hx2.trans he, hS x (List.mem_cons_of_mem _ hx)⟩
          · exact Or.inl (lt_of_le_of_lt (le_of_eq hx2) hlt)
    · refine List.Pairwise.cons ?_
        (orderedInsert_stable a t (List.Pairwise.of_cons hl)
          (fun c hc => hS c (List.mem_cons_of_mem _ hc)))
      intro x hx
      rcases (List.mem_orderedInsert countGe).mp hx with rfl | hx
      · exact Or.inl (not_le.mp hr)
      · exact List.rel_of_pairwise_cons hl hx

theorem insertionSort_stable :
    ∀ l : List FluctSummary,
      l.Pairwise (fun a b => keyLt (a.ticker, a.name) (b.ticker, b.name)) →
      (List.insertionSort countGe l).Pairwise stableRel
  | [], _ => by simp
  | a :: t, h => by
    rw [List.insertionSort]
    rcases List.pairwise_cons.mp h with ⟨ha, ht⟩
    exact orderedInsert_stable a _ (insertionSort_stable t ht)
      (fun b hb => ha b ((List.mem_insertionSort countGe).mp hb))

theorem summaryOf_key (all_events : List FluctEvent) (k : String × String) :
    (summaryOf all_events k).ticker = k.1 ∧ (summaryOf all_events k).name = k.2 := by
  unfold summaryOf
  cases List.insertionSort dateGe (all_events.filter (fun e => decide (eKey e = k))) <;>
    exact ⟨rfl, rfl⟩

theorem summaryOf_spec (all_events : List FluctEvent) (k : String × String) :
    (summaryOf all_events k).occurrence_count = (summaryOf all_events k).events.length ∧
    (summaryOf all_events k).events.Pairwise dateGe ∧
    (∀ e rest, (summaryOf all_events k).events = e :: rest →
      (summaryOf all_events k).recent_trough_date = e.trough_date ∧
      (summaryOf all_events k).recent_trough_price = e.trough_price ∧
      (summaryOf all_events k).recent_rebound_date = e.rebound_date ∧
      (summaryOf all_events k).recent_rebound_performance = e.rebound_performance) ∧
    (∀ e ∈ (summaryOf all_events k).events, e.ticker = k.1 ∧ e.name = k.2) := by
  have hmemkey : ∀ e ∈ List.insertionSort dateGe
      (all_events.filter (fun e => decide (eKey e = k))), e.ticker = k.1 ∧ e.name = k.2 := by
    intro e he
    have := List.of_mem_filter ((List.mem_insertionSort dateGe).mp he)
    have hk : eKey e = k := of_decide_eq_true this
    exact ⟨congrArg Prod.fst hk, congrArg Prod.snd hk⟩
  have hsorted := List.sorted_insertionSort dateGe
    (all_events.filter (fun e => decide (eKey e = k)))
  unfold summaryOf
  cases hs : List.insertionSort dateGe (all_events.filter (fun e => decide (eKey e = k))) with
  | nil =>
    refine ⟨rfl, List.Pairwise.nil, ?_, ?_⟩
    · intro e rest he
      cases he
    · intro e he
      cases he
  | cons e rest =>
    rw [hs] at hsorted hmemkey
    refine ⟨rfl, hsorted, ?_, hmemkey⟩
    intro e2 rest2 he
    cases he
    exact ⟨rfl, rfl, rfl, rfl⟩

/-- C5 (amended). Aggregation groups events by their `(ticker, name)` pair;
each summary counts exactly its events, keeps them sorted by trough date
descending and takes its "recent" fields from the first (most recent) event;
summaries are sorted by occurrence count descending, with ties broken by
ascending `(ticker, name)` group key (the groupby key order), not by input
order. -/
theorem aggregate_spec :
    ∀ all_events : List FluctEvent,
      (∀ s ∈ processAndAggregate all_events,
        s.occurrence_count = s.events.length ∧
        s.events.Pairwise dateGe ∧
        (∀ e rest, s.events = e :: rest →
          s.recent_trough_date = e.trough_date ∧
          s.recent_trough_price = e.trough_price ∧
          s.recent_rebound_date = e.rebound_date ∧
          s.recent_rebound_performance = e.rebound_performance) ∧
        (∀ e ∈ s.events, e.ticker = s.ticker ∧ e.name = s.name)) ∧
      (processAndAggregate all_events).Pairwise countGe ∧
      (processAndAggregate all_events).Pairwise stableRel := by
  intro all_events
  by_cases hne : all_events.isEmpty
  · rw [processAndAggregate, if_pos hne]
    refine ⟨?_, List.Pairwise.nil, List.Pairwise.nil⟩
    intro s hs
    cases hs
  · rw [processAndAggregate, if_neg hne]
    have hks : (List.insertionSort keyLe (all_events.map eKey).dedup).Pairwise keyLt := by
      have h1 := List.sorted_insertionSort keyLe (all_events.map eKey).dedup
      have h2 : (List.insertionSort keyLe (all_events.map eKey).dedup).Nodup :=
        (List.perm_insertionSort keyLe _).nodup_iff.mpr (List.nodup_dedup _)
      exact (h1.and h2).imp (fun h => keyLt_of_keyLe_of_ne h.1 h.2)
    refine ⟨?_, List.sorted_insertionSort countGe _, ?_⟩
    · intro s hs
      have hs2 := (List.mem_insertionSort countGe).mp hs
      rcases List.mem_map.mp hs2 with ⟨k, hk, rfl⟩
      rcases summaryOf_spec all_events k with ⟨hc, hsd, hrec, hkey⟩
      refine ⟨hc, hsd, hrec, ?_⟩
      intro e he
      rcases hkey e he with ⟨h1, h2⟩
      rw [(summaryOf_key all_events k).1, (summaryOf_key all_events k).2]
      exact ⟨h1, h2⟩
    · refine insertionSort_stable _ ?_
      rw [List.pairwise_map]
      refine hks.imp ?_
      intro a b h
      rw [(summaryOf_key all_events a).1, (summaryOf_key all_events a).2,
        (summaryOf_key all_events b).1, (summaryOf_key all_events b).2]
      exact h

/-- Two single-event tickers, ticker "B" first in the input. -/
def exAggEvents : List FluctEvent :=
  [⟨ "B", "NB", 5, 75, 8, 110, 40⟩, ⟨ "A", "NA", 6, 70, 8, 110, 50⟩]

/-- C5, counterexample. Both tickers have `occurrenceCount = 1` (a tie), the
input order is B before A, but the output order is A before B: the tie is
broken by the ascending groupby key, not by input order (pandas `groupby` emits
groups in sorted key order and the final stable sort keeps that order among
ties). -/
theorem aggregate_tie_input_order_counterexample :
    (processAndAggregate exAggEvents).map (fun s => s.ticker) = [ "A", "B"] ∧
    exAggEvents.map (fun e => e.ticker) = [ "B", "A"] ∧
    (processAndAggregate exAggEvents).map (fun s => s.occurrence_count) = [1, 1] := by
  refine ⟨by decide, by decide, by decide⟩

/-- The first summary of the aggregated counterexample input. -/
def exAggSummaryA : FluctSummary :=
  ⟨ "A", "NA", 1, 6, 70, 8, 50, [⟨ "A", "NA", 6, 70, 8, 110, 50⟩]⟩

/-- C5, witness: the per-summary invariants applied to the concrete summary of
ticker "A" in the aggregation of `exAggEvents`. -/
theorem aggregate_spec_witness :
    exAggSummaryA.occurrence_count = exAggSummaryA.events.length ∧
    exAggSummaryA.events.Pairwise dateGe ∧
    (∀ e rest, exAggSummaryA.events = e :: rest →
      exAggSummaryA.recent_trough_date = e.trough_date ∧
      exAggSummaryA.recent_trough_price = e.trough_price ∧
      exAggSummaryA.recent_rebound_date = e.rebound_date ∧
      exAggSummaryA.recent_rebound_performance = e.rebound_performance) ∧
    (∀ e ∈ exAggSummaryA.events, e.ticker = exAggSummaryA.ticker ∧
      e.name = exAggSummaryA.name) :=
  (aggregate_spec exAggEvents).1 exAggSummaryA (by decide)

/-! ### Ticker universe and orchestrators

Shallow embedding of `_get_tickers_by_market`, `get_market_performance`,
`get_market_performance_fast` (performance_service.py) and
`find_fluctuation_stocks` (fluctuation_service.py). Upstream listing and price
sources are parameters; fallible ones return `Except Unit`, and the enclosing
try/except converts any failure into an empty listing. -/

def krMarkets : List String := [ "KOSPI", "KOSDAQ"]

def usMarkets : List String := [ "NASDAQ", "NYSE", "S&P500"]

/-- `_get_tickers_by_market`: domestic markets list tickers from the exchange
library (keeping 6-digit numeric codes and resolving names), foreign markets
use the listing library; an unrecognized market or any upstream exception
yields an empty listing. -/
def getTickersByMarket
    (krxList : String → Except Unit (List String))
    (krxName : String → Except Unit String)
    (fdrListing : String → Except Unit (List (String × String)))
    (market : String) : List (String × String) :=
  if market ∈ krMarkets then
    match krxList market with
    | .error _ => []
    | .ok tickers =>
      match (tickers.filter (fun t => t.length == 6 && t.data.all Char.isDigit)).mapM
          krxName with
      | .error _ => []
      | .ok names =>
        (tickers.filter (fun t => t.length == 6 && t.data.all Char.isDigit)).zip names
  else if market ∈ usMarkets then
    match fdrListing market with
    | .error _ => []
    | .ok l => l
  else []

structure PerfResult where
  top_performers : List PerfRecord
  bottom_performers : List PerfRecord
  total_analyzed : Option Nat
  analysis_period : Option String
  market : Option String
deriving DecidableEq, Repr

/-- The early-return result `{"top_performers": [], "bottom_performers": []}`. -/
def emptyPerfResult : PerfResult := ⟨[], [], none, none, none⟩

/-- The mutable configuration fields of one `PerformanceService` instance. -/
structure SvcConfig where
  max_workers : Nat
  chunk_size : Nat
  timeout : Nat
  max_tickers : Nat
  max_chunks : Nat
  cache_ttl : ℚ
deriving DecidableEq, Repr

/-- `PerformanceService.get_market_performance`: cache check, listing
resolution with empty-listing early return, per-market computation
(`computePerf` abstracts the network-bound `_get_performance_kr` /
`_get_performance_us_optimized`), ranking, and cache store. -/
def getMarketPerformance (md5hex : String → String) (cache : CacheState PerfResult)
    (svc : SvcConfig) (listingOf : String → List (String × String))
    (computePerf : String → List PerfRecord)
    (market sd ed : String) (top_n : Nat) (now ttlGlobal : ℚ) :
    PerfResult × CacheState PerfResult :=
  match cacheGetKey cache (generateKey md5hex "market_performance"
      [( "market", JVal.s market), ( "start_date", JVal.s sd),
       ( "end_date", JVal.s ed), ( "top_n", JVal.i top_n)]) now ttlGlobal with
  | (c1, some r) => (r, c1)
  | (c1, none) =>
    if (listingOf market).isEmpty then (emptyPerfResult, c1)
    else
      let recs := computePerf market
      let result : PerfResult :=
        if recs.isEmpty then emptyPerfResult
        else
          ⟨(rankRecords recs top_n).1, (rankRecords recs top_n).2, some recs.length,
            some (sd ++ " ~ " ++ ed), some market⟩
      (result,
        (cacheSetKey c1 (generateKey md5hex "market_performance"
          [( "market", JVal.s market), ( "start_date", JVal.s sd),
           ( "end_date", JVal.s ed), ( "top_n", JVal.i top_n)]) result
          (some svc.cache_ttl) now ttlGlobal).1)

/-- `PerformanceService.get_market_performance_fast`: save the three ceiling
fields, override them (`max_tickers=500, chunk_size=25, max_chunks=10`), run
the ordinary analysis with `min(top_n, 20)`, and restore the saved fields in a
`finally` block, so restoration happens on the error path as well (an erroring
`call` is `Except.error`). -/
def getMarketPerformanceFast (svc : SvcConfig)
    (call : SvcConfig → String → String → String → Nat → Except String PerfResult)
    (market sd ed : String) (top_n : Nat) : Except String PerfResult × SvcConfig :=
  let original_max_tickers := svc.max_tickers
  let original_chunk_size := svc.chunk_size
  let original_max_chunks := svc.max_chunks
  let svc1 : SvcConfig :=
    { svc with max_tickers := 500, chunk_size := 25, max_chunks := 10 }
  let r := call svc1 market sd ed (min top_n 20)
  (r, { svc1 with max_tickers := original_max_tickers,
                  chunk_size := original_chunk_size,
                  max_chunks := original_max_chunks })

/-- `FluctuationService.find_fluctuation_stocks`: resolve the universe, return
empty for an empty universe, dispatch on country (KR and US run the same
per-series detection, differing only in the price fetch path, abstracted by
`priceOf`), and return empty for any other country. -/
def findFluctuationStocks (listTickers : String → List (String × String))
    (priceOf : String → List (Nat × ℚ))
    (country market : String) (dp : Nat) (dRate : ℚ) (rp : Nat) (rRate : ℚ) :
    List FluctSummary :=
  if (listTickers market).isEmpty then []
  else if country = "KR" then
    processAndAggregate
      ((listTickers market).flatMap (fun p => findEvents p.1 p.2 (priceOf p.1) dp dRate rp rRate))
  else if country = "US" then
    processAndAggregate
      ((listTickers market).flatMap (fun p => findEvents p.1 p.2 (priceOf p.1) dp dRate rp rRate))
  else []

/-- C8. An unrecognized market, or a failing upstream listing source, yields an
empty ticker list rather than an error, and a performance analysis whose
resolved listing is empty (on a cache miss for its parameters) returns the
well-formed early result with empty `top_performers` and `bottom_performers`. -/
theorem empty_universe_spec :
    (∀ (krxList : String → Except Unit (List String))
       (krxName : String → Except Unit String)
       (fdrListing : String → Except Unit (List (String × String))) (market : String),
       market ∉ krMarkets → market ∉ usMarkets →
       getTickersByMarket krxList krxName fdrListing market = []) ∧
    (∀ (krxName : String → Except Unit String) (market : String),
       getTickersByMarket (fun _ => .error ()) krxName (fun _ => .error ()) market = []) ∧
    (∀ (md5hex : String → String) (cache : CacheState PerfResult) (svc : SvcConfig)
       (listingOf : String → List (String × String)) (computePerf : String → List PerfRecord)
       (market sd ed : String) (top_n : Nat) (now ttlGlobal : ℚ),
       (cacheGetKey cache (generateKey md5hex "market_performance"
          [( "market", JVal.s market), ( "start_date", JVal.s sd),
           ( "end_date", JVal.s ed), ( "top_n", JVal.i top_n)]) now ttlGlobal).2 = none →
       listingOf market = [] →
       (getMarketPerformance md5hex cache svc listingOf computePerf market sd ed top_n
          now ttlGlobal).1.top_performers = [] ∧
       (getMarketPerformance md5hex cache svc listingOf computePerf market sd ed top_n
          now ttlGlobal).1.bottom_performers = []) := by
  refine ⟨?_, ?_, ?_⟩
  · intro krxList krxName fdrListing market h1 h2
    rw [getTickersByMarket, if_neg h1, if_neg h2]
  · intro krxName market
    rw [getTickersByMarket]
    split_ifs <;> rfl
  · intro md5hex cache svc listingOf computePerf market sd ed top_n now ttlGlobal hcache hlist
    rcases hceq : cacheGetKey cache (generateKey md5hex "market_performance"
        [( "market", JVal.s market), ( "start_date", JVal.s sd),
         ( "end_date", JVal.s ed), ( "top_n", JVal.i top_n)]) now ttlGlobal with ⟨c1, r⟩
    rw [hceq] at hcache
    simp only at hcache
    subst hcache
    have hempty : (listingOf market).isEmpty = true := by rw [hlist]; rfl
    rw [getMarketPerformance, hceq]
    simp [hempty, emptyPerfResult]

/-- C8, witness: the composition on the unrecognized market "UNKNOWN" with a
fresh in-process cache and an empty listing. -/
theorem empty_universe_spec_witness :
    getTickersByMarket (fun _ => Except.ok []) (fun t => Except.ok t)
      (fun _ => Except.ok []) "UNKNOWN" = [] ∧
    ((getMarketPerformance id (initCache PerfResult true false) ⟨4, 50, 5, 1000, 20, 3600⟩
        (fun _ => []) (fun _ => []) "UNKNOWN" "2024-01-01" "2024-06-30" 10 0
        3600).1.top_performers = [] ∧
     (getMarketPerformance id (initCache PerfResult true false) ⟨4, 50, 5, 1000, 20, 3600⟩
        (fun _ => []) (fun _ => []) "UNKNOWN" "2024-01-01" "2024-06-30" 10 0
        3600).1.bottom_performers = []) :=
  ⟨empty_universe_spec.1 (fun _ => Except.ok []) (fun t => Except.ok t)
      (fun _ => Except.ok []) "UNKNOWN" (by decide) (by decide),
   empty_universe_spec.2.2 id (initCache PerfResult true false) ⟨4, 50, 5, 1000, 20, 3600⟩
      (fun _ => []) (fun _ => []) "UNKNOWN" "2024-01-01" "2024-06-30" 10 0 3600
      (by decide) rfl⟩

/-- C9. The fast variant overrides exactly `max_tickers`, `chunk_size` and
`max_chunks` (to 500, 25, 10) for the duration of the one inner call, which
also receives `min(top_n, 20)`; afterwards the whole configuration record
equals the original — every field restored, no other field touched — for every
outcome of the inner call, hence also when it raises (`Except.error`). -/
theorem fast_variant_restore_spec :
    ∀ (svc : SvcConfig)
      (call : SvcConfig → String → String → String → Nat → Except String PerfResult)
      (market sd ed : String) (top_n : Nat),
      (getMarketPerformanceFast svc call market sd ed top_n).2 = svc ∧
      (getMarketPerformanceFast svc call market sd ed top_n).1 =
        call { svc with max_tickers := 500, chunk_size := 25, max_chunks := 10 }
          market sd ed (min top_n 20) := by
  intro svc call market sd ed top_n
  obtain ⟨a, b, c, d, e, f⟩ := svc
  exact ⟨rfl, rfl⟩

/-- C10. For a country other than "KR" and "US", and likewise for an empty
resolved ticker universe, `find_fluctuation_stocks` returns the empty list;
in both cases the result does not depend on the price-data source at all (no
price data is fetched). -/
theorem find_fluctuation_dispatch_spec :
    ∀ (listTickers : String → List (String × String))
      (priceOf1 priceOf2 : String → List (Nat × ℚ))
      (country market : String) (dp : Nat) (dRate : ℚ) (rp : Nat) (rRate : ℚ),
      (country ≠ "KR" → country ≠ "US" →
        findFluctuationStocks listTickers priceOf1 country market dp dRate rp rRate = []) ∧
      (listTickers market = [] →
        findFluctuationStocks listTickers priceOf1 country market dp dRate rp rRate = []) ∧
      ((country ≠ "KR" ∧ country ≠ "US") ∨ listTickers market = [] →
        findFluctuationStocks listTickers priceOf1 country market dp dRate rp rRate =
        findFluctuationStocks listTickers priceOf2 country market dp dRate rp rRate) := by
  intro listTickers priceOf1 priceOf2 country market dp dRate rp rRate
  refine ⟨?_, ?_, ?_⟩
  · intro h1 h2
    rw [findFluctuationStocks]
    by_cases he : (listTickers market).isEmpty
    · rw [if_pos he]
    · rw [if_neg he, if_neg h1, if_neg h2]
  · intro h
    have hempty : (listTickers market).isEmpty = true := by rw [h]; rfl
    rw [findFluctuationStocks, if_pos hempty]
  · rintro (⟨h1, h2⟩ | h)
    · rw [findFluctuationStocks, findFluctuationStocks]
      by_cases he : (listTickers market).isEmpty
      · rw [if_pos he, if_pos he]
      · rw [if_neg he, if_neg h1, if_neg h2, if_neg he, if_neg h1, if_neg h2]
    · have hempty : (listTickers market).isEmpty = true := by rw [h]; rfl
      rw [findFluctuationStocks, if_pos hempty, findFluctuationStocks, if_pos hempty]

/-- C10, witness: country "JP" with a nonempty universe returns the empty list
independently of the price source, and an empty universe does too. -/
theorem find_fluctuation_dispatch_spec_witness :
    (findFluctuationStocks (fun _ => [( "005930", "SamsungElectronics")])
      (fun _ => exSeries) "JP" "KOSPI" 5 (-20) 3 20 = []) ∧
    (findFluctuationStocks (fun _ => []) (fun _ => exSeries) "KR" "KOSPI" 5 (-20) 3 20 = []) ∧
    (findFluctuationStocks (fun _ => [( "005930", "SamsungElectronics")])
      (fun _ => exSeries) "JP" "KOSPI" 5 (-20) 3 20 =
     findFluctuationStocks (fun _ => [( "005930", "SamsungElectronics")])
      (fun _ => []) "JP" "KOSPI" 5 (-20) 3 20) :=
  ⟨(find_fluctuation_dispatch_spec (fun _ => [( "005930", "SamsungElectronics")])
      (fun _ => exSeries) (fun _ => []) "JP" "KOSPI" 5 (-20) 3 20).1 (by decide) (by decide),
   (find_fluctuation_dispatch_spec (fun _ => []) (fun _ => exSeries) (fun _ => exSeries)
      "KR" "KOSPI" 5 (-20) 3 20).2.1 rfl,
   (find_fluctuation_dispatch_spec (fun _ => [( "005930", "SamsungElectronics")])
      (fun _ => exSeries) (fun _ => []) "JP" "KOSPI" 5 (-20) 3 20).2.2
      (Or.inl ⟨by decide, by decide⟩)⟩
